import Mathlib

/-!
Verification development for the AloeDB document store core
(`src/unnamed/part_000`, i.e. `core.ts`, and `src/lib/database.ts`).

JavaScript runtime values stored in documents are modelled by the
inductive type `JSValue`; a `Document` is an ordered field list, as JS
object keys are ordered.  Helper functions that `core.ts` imports from
`utils.ts` (a file of this repository not present under `src/`) are
modelled from the spec, each marked by a doc comment.
-/

/-- A JavaScript value as it can occur in a document or a query literal:
`undefined` is the absent-marker (JS `undefined`), numbers are modelled as
integers. -/
inductive JSValue where
  | undefined
  | null
  | bool (b : Bool)
  | num (n : Int)
  | str (s : String)
  | arr (elems : List JSValue)
  | obj (fields : List (String × JSValue))
deriving Repr

/-- A document: an ordered mapping from field names to values
(`Document` in `types.ts`). -/
abbrev Document : Type := List (String × JSValue)

/-- Field lookup in an ordered field list; `none` when the key is not
present. -/
def lookupField : List (String × JSValue) → String → Option JSValue
  | [], _ => none
  | (k, v) :: rest, key => if k == key then some v else lookupField rest key

/-- JS member access `document[key]`: yields `undefined` when the field
does not exist. -/
def getField (d : Document) (key : String) : JSValue :=
  (lookupField d key).getD .undefined

/-- The runtime check `isUndefined` from `utils.ts`. -/
def isUndefined : JSValue → Bool
  | .undefined => true
  | _ => false

/-- The runtime check `isObject` from `utils.ts`. -/
def isObject : JSValue → Bool
  | .obj _ => true
  | _ => false

/-- JS strict equality `===` restricted to the case where the left side
is a primitive (string, number, boolean or null), which is the only way
`core.ts` uses it in `matchValues`. -/
def strictEqPrim : JSValue → JSValue → Bool
  | .str a, .str b => a == b
  | .num a, .num b => a == b
  | .bool a, .bool b => a == b
  | .null, .null => true
  | _, _ => false

mutual
/-- Modelled from the spec: `deepCompare` from `utils.ts`, deep
equality with arrays compared by length and positional equality and
objects compared by field set and per-field equality; mismatched types
are never equal. -/
def deepCompare : JSValue → JSValue → Bool
  | .undefined, .undefined => true
  | .null, .null => true
  | .bool a, .bool b => a == b
  | .num a, .num b => a == b
  | .str a, .str b => a == b
  | .arr xs, .arr ys => deepCompareList xs ys
  | .obj fs, .obj gs => fs.length == gs.length && deepCompareFields fs gs
  | _, _ => false
termination_by a _ => sizeOf a

/-- Positional deep equality of two value lists. -/
def deepCompareList : List JSValue → List JSValue → Bool
  | [], [] => true
  | x :: xs, y :: ys => deepCompare x y && deepCompareList xs ys
  | _, _ => false
termination_by xs _ => sizeOf xs

/-- Every field of the first object deep-equals the same-named field of
the second. -/
def deepCompareFields : List (String × JSValue) → List (String × JSValue) → Bool
  | [], _ => true
  | (k, v) :: rest, gs =>
      (match lookupField gs k with
        | some w => deepCompare v w
        | none => false) && deepCompareFields rest gs
termination_by fs _ => sizeOf fs
end

/-- A query value (`QueryValue` in `types.ts`): a JS literal (possibly a
nested container or the absent-marker), a predicate function (modelled
by the truthiness of its result), or a regular expression (modelled by
its match test on strings). -/
inductive QueryValue where
  | qVal (v : JSValue)
  | qFun (f : JSValue → Bool)
  | qRegex (test : String → Bool)

/-- `matchValues` from `core.ts`: compares the value from the query and
the value from the document, following the source dispatch order
(primitive strict equality, predicate function, regular expression,
container deep comparison, absent-marker, defensive false). -/
def matchValues (queryValue : QueryValue) (documentValue : JSValue) : Bool :=
  match queryValue with
  | .qVal v =>
      match v with
      | .str _ | .num _ | .bool _ | .null => strictEqPrim v documentValue
      | .arr _ | .obj _ => deepCompare v documentValue
      | .undefined => isUndefined documentValue
  | .qFun f => f documentValue
  | .qRegex test =>
      match documentValue with
      | .str s => test s
      | _ => false

/-- A query argument as accepted by `searchDocuments`: `undefined`, a
predicate function over whole documents, or a field map. -/
inductive QueryArg where
  | qNone
  | qFunc (f : Document → Bool)
  | qMap (fields : List (String × QueryValue))

/-- Modelled from the spec: `numbersList` from `utils.ts`; called with
`documents.length - 1` it yields all positions `0..documents.length-1`
in order (empty when the argument is negative). -/
def numbersList (n : Int) : List Nat :=
  List.range (n + 1).toNat

/-- Modelled from the spec: `cleanArray` from `utils.ts`; compacts a
sparse array, keeping the surviving entries in order (holes are
modelled as `none`). -/
def cleanArray (found : List (Option Nat)) : List Nat :=
  found.filterMap id

/-- The first-field scan of `searchDocuments`: all positions whose
document matches the query value at `key`. -/
def firstScan (documents : List Document) (key : String) (qv : QueryValue) : List Nat :=
  (List.range documents.length).filter
    (fun i => matchValues qv (getField (documents.getD i []) key))

/-- One subsequent-field pass of `searchDocuments`: every surviving
slot whose document fails to match at `key` is deleted (becomes a
hole). -/
def applyField (documents : List Document) (key : String) (qv : QueryValue)
    (found : List (Option Nat)) : List (Option Nat) :=
  found.map (fun slot =>
    match slot with
    | none => none
    | some position =>
        if matchValues qv (getField (documents.getD position []) key)
        then some position else none)

/-- The subsequent-field loop of `searchDocuments`, one pass per
remaining query field. -/
def processRest (documents : List Document) (fields : List (String × QueryValue))
    (found : List (Option Nat)) : List (Option Nat) :=
  fields.foldl (fun acc kv => applyField documents kv.1 kv.2 acc) found

/-- The field-map branch of `searchDocuments`: an empty map matches
everything; otherwise the first field scans all documents (returning
early when nothing matched), the remaining fields filter the surviving
positions, and the final sparse array is compacted. -/
def searchFields (documents : List Document) : List (String × QueryValue) → List Nat
  | [] => numbersList ((documents.length : Int) - 1)
  | (key, qv) :: rest =>
      let found := firstScan documents key qv
      if found.isEmpty then []
      else cleanArray (processRest documents rest (found.map some))

/-- `searchDocuments` from `core.ts`: find document positions for a
query. -/
def searchDocuments (query : QueryArg) (documents : List Document) : List Nat :=
  match query with
  | .qFunc f => (List.range documents.length).filter (fun i => f (documents.getD i []))
  | .qNone => numbersList ((documents.length : Int) - 1)
  | .qMap fields => searchFields documents fields

/-- Whether position `i` of `documents` satisfies the single query
field `kv`; the per-position test `searchDocuments` applies. -/
def fieldMatches (documents : List Document) (i : Nat) (kv : String × QueryValue) : Bool :=
  matchValues kv.2 (getField (documents.getD i []) kv.1)

mutual
/-- Modelled from the spec: `deepClone` from `utils.ts`; a deep copy of
a value (primitives returned as is, containers rebuilt recursively). -/
def deepClone : JSValue → JSValue
  | .undefined => .undefined
  | .null => .null
  | .bool b => .bool b
  | .num n => .num n
  | .str s => .str s
  | .arr xs => .arr (deepCloneList xs)
  | .obj fs => .obj (deepCloneFields fs)
termination_by v => sizeOf v

/-- Deep copy of a value list. -/
def deepCloneList : List JSValue → List JSValue
  | [] => []
  | x :: xs => deepClone x :: deepCloneList xs
termination_by xs => sizeOf xs

/-- Deep copy of an ordered field list. -/
def deepCloneFields : List (String × JSValue) → List (String × JSValue)
  | [] => []
  | (k, v) :: rest => (k, deepClone v) :: deepCloneFields rest
termination_by fs => sizeOf fs
end

mutual
/-- Normalization of a value occurring inside an array: absent elements
become `null` (they cannot be removed without shifting positions) and
containers are recursed into. -/
def prepareValue : JSValue → JSValue
  | .undefined => .null
  | .arr xs => .arr (prepareList xs)
  | .obj fs => .obj (prepareFields fs)
  | v => v
termination_by v => sizeOf v

/-- Normalization of the elements of an array. -/
def prepareList : List JSValue → List JSValue
  | [] => []
  | x :: xs => prepareValue x :: prepareList xs
termination_by xs => sizeOf xs

/-- Modelled from the spec: `prepareObject` from `utils.ts`; recursively
strips every field (at any depth) whose value is the absent-marker, so
that no stored document contains absent-marker fields. -/
def prepareFields : List (String × JSValue) → List (String × JSValue)
  | [] => []
  | (k, v) :: rest =>
      match v with
      | .undefined => prepareFields rest
      | .arr xs => (k, .arr (prepareList xs)) :: prepareFields rest
      | .obj fs => (k, .obj (prepareFields fs)) :: prepareFields rest
      | v => (k, v) :: prepareFields rest
termination_by fs => sizeOf fs
end

/-- JS falsiness of a value: `undefined`, `null`, `false`, `0` and the
empty string are falsy, everything else is truthy. -/
def jsFalsy : JSValue → Bool
  | .undefined => true
  | .null => true
  | .bool b => !b
  | .num n => n == 0
  | .str s => s.isEmpty
  | _ => false

/-- An update value (`UpdateValue` in `types.ts`): a value to assign
directly (the absent-marker deletes the field), or a per-field
transform receiving the current field value. -/
inductive UpdateValue where
  | uVal (v : JSValue)
  | uFun (f : JSValue → JSValue)

/-- An update argument as accepted by `updateDocument`: a field map or
a whole-document transform (the transform may return any JS value). -/
inductive UpdateArg where
  | uMap (fields : List (String × UpdateValue))
  | uFunc (f : Document → JSValue)

/-- JS assignment `obj[key] = v`: replaces the value of an existing
field in place, or appends a new field at the end. -/
def setField : Document → String → JSValue → Document
  | [], key, v => [(key, v)]
  | (k, w) :: rest, key, v =>
      if k == key then (k, v) :: rest else (k, w) :: setField rest key v

/-- JS `delete obj[key]`: removes the field if present. -/
def deleteField : Document → String → Document
  | [], _ => []
  | (k, w) :: rest, key =>
      if k == key then deleteField rest key else (k, w) :: deleteField rest key

/-- The field-map loop of `updateDocument`: each update field either
deletes the target field (when the computed replacement is the
absent-marker) or assigns the replacement. -/
def applyUpdates (newDocument : Document) (fields : List (String × UpdateValue)) : Document :=
  fields.foldl
    (fun doc kv =>
      let result : JSValue :=
        match kv.2 with
        | .uFun f => f (getField doc kv.1)
        | .uVal v => v
      if isUndefined result then deleteField doc kv.1 else setField doc kv.1 result)
    newDocument

/-- `updateDocument` from `core.ts`: create a new document by applying
modifications to a deep copy of the given document.  `.ok none` is the
deletion signal (the source returns `null`), `.error` models the thrown
`TypeError` when a whole-document transform returns a truthy
non-object. -/
def updateDocument (document : Document) (update : UpdateArg) :
    Except String (Option Document) :=
  let newDocument := deepCloneFields document
  match update with
  | .uFunc f =>
      let result := f newDocument
      if jsFalsy result then .ok none
      else
        match result with
        | .obj fs =>
            let prepared := prepareFields fs
            if prepared.isEmpty then .ok none
            else .ok (some (deepCloneFields prepared))
        | _ => .error "Document must be an object"
  | .uMap ufields =>
      let worked := applyUpdates newDocument ufields
      let prepared := prepareFields worked
      if prepared.isEmpty then .ok none
      else .ok (some (deepCloneFields prepared))

mutual
/-- No field at any depth of this value holds the absent-marker. -/
def noAbsentValue : JSValue → Bool
  | .arr xs => noAbsentList xs
  | .obj fs => noAbsentFields fs
  | _ => true
termination_by v => sizeOf v

/-- No field at any depth of these array elements holds the
absent-marker. -/
def noAbsentList : List JSValue → Bool
  | [] => true
  | x :: xs => noAbsentValue x && noAbsentList xs
termination_by xs => sizeOf xs

/-- No field of this field list, at any depth, holds the
absent-marker. -/
def noAbsentFields : List (String × JSValue) → Bool
  | [] => true
  | (_, v) :: rest => !isUndefined v && noAbsentValue v && noAbsentFields rest
termination_by fs => sizeOf fs
end

/-- The content of the storage file, abstracted by the outcome of
trimming and `JSON.parse` (a host-language builtin): `blank` when the
trimmed content is empty, `json v` when it parses to the value `v`,
`invalid` when `JSON.parse` throws. -/
inductive FileContent where
  | blank
  | json (v : JSValue)
  | invalid

/-- The element loop of `parseDatabaseStorage`: every element must be
an object; each is normalized and dropped when normalization leaves it
empty. -/
def parseElements : List JSValue → Except String (List Document)
  | [] => .ok []
  | .obj fs :: rest =>
      let prepared := prepareFields fs
      (parseElements rest).map
        (fun docs => if prepared.isEmpty then docs else prepared :: docs)
  | _ :: _ => .error "Database storage should contain only objects"

/-- `parseDatabaseStorage` from `core.ts`: whitespace-only content is
an empty collection; otherwise the content must be a JSON array of
objects, whose elements are normalized (empty ones dropped). -/
def parseDatabaseStorage : FileContent → Except String (List Document)
  | .blank => .ok []
  | .invalid => .error "SyntaxError"
  | .json v =>
      match v with
      | .arr elems => parseElements elems
      | _ => .error "Database storage should be an array of objects"

/-- `Database.load` from `database.ts` as a transition on the in-memory
collection (the validator is absent, its default): on a successful
parse the collection is replaced, on a parse error the exception
propagates before the assignment, leaving the collection unmodified. -/
def load (current : List Document) (content : FileContent) : List Document :=
  match parseDatabaseStorage content with
  | .ok docs => docs
  | .error _ => current

/-- `Database.insertOne` from `database.ts` (validator absent, its
default): returns the collection after the call, whether `save` was
triggered, and the returned document.  A document that normalizes to
empty yields an empty object without inserting or saving. -/
def insertOne (autosave : Bool) (docs : List Document) (document : Document) :
    List Document × Bool × Document :=
  let prepared := prepareFields document
  if prepared.isEmpty then (docs, false, ([] : List (String × JSValue)))
  else (docs ++ [prepared], autosave, prepared)

/-- `Database.insertMany` from `database.ts` (validator absent, its
default): documents that normalize to empty are skipped; returns the
collection after the call, whether `save` was triggered, and the list
of inserted documents. -/
def insertMany (autosave : Bool) (docs : List Document) (input : List Document) :
    List Document × Bool × List Document :=
  let inserted := (input.map prepareFields).filter (fun p => !p.isEmpty)
  (docs ++ inserted, autosave, inserted)

/-- Modelled from the spec: the state machine of the Durability
Coalescer (`writer.ts` is absent from `src/`): idle, writing a
snapshot, or writing with a remembered latest-pending snapshot. -/
inductive WriterState where
  | idle
  | writing (current : String)
  | writingPending (current : String) (pending : String)
deriving Repr, DecidableEq

/-- The coalescer together with the file it mirrors; the file content
is replaced whole when a write completes. -/
structure WriterSys where
  st : WriterState
  file : String
deriving Repr, DecidableEq

/-- Modelled from the spec: a snapshot request (`Writer.add`): begin
writing when idle, otherwise remember it as the latest pending
snapshot, overwriting any previously remembered one. -/
def addSnapshot (w : WriterSys) (s : String) : WriterSys :=
  match w.st with
  | .idle => ⟨.writing s, w.file⟩
  | .writing c => ⟨.writingPending c s, w.file⟩
  | .writingPending c _ => ⟨.writingPending c s, w.file⟩

/-- Modelled from the spec: completion of the in-flight write: the file
now contains the written snapshot; a remembered pending snapshot
immediately begins writing. -/
def completeWrite (w : WriterSys) : WriterSys :=
  match w.st with
  | .idle => w
  | .writing c => ⟨.idle, c⟩
  | .writingPending c p => ⟨.writing p, c⟩

/-- How many writes must still complete before the coalescer is
quiescent. -/
def drainSteps (w : WriterSys) : Nat :=
  match w.st with
  | .idle => 0
  | .writing _ => 1
  | .writingPending _ _ => 2

/-- Run the coalescer to quiescence: let every in-flight and pending
write complete. -/
def drain (w : WriterSys) : WriterSys :=
  match w.st with
  | .idle => w
  | .writing _ => completeWrite w
  | .writingPending _ _ => completeWrite (completeWrite w)

/-- All file contents observable from this configuration until
quiescence (each write replaces the file atomically and whole). -/
def traceFiles (w : WriterSys) : List String :=
  match w.st with
  | .idle => [w.file]
  | .writing c => [w.file, c]
  | .writingPending c p => [w.file, c, p]

mutual
theorem deepClone_eq : (v : JSValue) → deepClone v = v
  | .undefined => by rw [deepClone]
  | .null => by rw [deepClone]
  | .bool b => by rw [deepClone]
  | .num n => by rw [deepClone]
  | .str s => by rw [deepClone]
  | .arr xs => by rw [deepClone, deepCloneList_eq xs]
  | .obj fs => by rw [deepClone, deepCloneFields_eq fs]
termination_by v => sizeOf v

theorem deepCloneList_eq : (xs : List JSValue) → deepCloneList xs = xs
  | [] => by rw [deepCloneList]
  | x :: xs => by rw [deepCloneList, deepClone_eq x, deepCloneList_eq xs]
termination_by xs => sizeOf xs

theorem deepCloneFields_eq : (fs : List (String × JSValue)) → deepCloneFields fs = fs
  | [] => by rw [deepCloneFields]
  | (k, v) :: rest => by rw [deepCloneFields, deepClone_eq v, deepCloneFields_eq rest]
termination_by fs => sizeOf fs
end

mutual
theorem noAbsent_prepareValue : (v : JSValue) → noAbsentValue (prepareValue v) = true
  | .undefined => by simp [prepareValue, noAbsentValue]
  | .null => by simp [prepareValue, noAbsentValue]
  | .bool b => by simp [prepareValue, noAbsentValue]
  | .num n => by simp [prepareValue, noAbsentValue]
  | .str s => by simp [prepareValue, noAbsentValue]
  | .arr xs => by simp [prepareValue, noAbsentValue, noAbsent_prepareList xs]
  | .obj fs => by simp [prepareValue, noAbsentValue, noAbsent_prepareFields fs]
termination_by v => sizeOf v

theorem noAbsent_prepareList : (xs : List JSValue) → noAbsentList (prepareList xs) = true
  | [] => by simp [prepareList, noAbsentList]
  | x :: xs => by
      simp [prepareList, noAbsentList, noAbsent_prepareValue x, noAbsent_prepareList xs]
termination_by xs => sizeOf xs

theorem noAbsent_prepareFields :
    (fs : List (String × JSValue)) → noAbsentFields (prepareFields fs) = true
  | [] => by simp [prepareFields, noAbsentFields]
  | (k, .undefined) :: rest => by simp [prepareFields, noAbsent_prepareFields rest]
  | (k, .null) :: rest => by
      simp [prepareFields, noAbsentFields, noAbsent_prepareFields rest, isUndefined,
        noAbsentValue]
  | (k, .bool b) :: rest => by
      simp [prepareFields, noAbsentFields, noAbsent_prepareFields rest, isUndefined,
        noAbsentValue]
  | (k, .num n) :: rest => by
      simp [prepareFields, noAbsentFields, noAbsent_prepareFields rest, isUndefined,
        noAbsentValue]
  | (k, .str s) :: rest => by
      simp [prepareFields, noAbsentFields, noAbsent_prepareFields rest, isUndefined,
        noAbsentValue]
  | (k, .arr xs) :: rest => by
      simp [prepareFields, noAbsentFields, noAbsent_prepareFields rest, isUndefined,
        noAbsentValue, noAbsent_prepareList xs]
  | (k, .obj fs) :: rest => by
      simp [prepareFields, noAbsentFields, noAbsent_prepareFields rest, isUndefined,
        noAbsentValue, noAbsent_prepareFields fs]
termination_by fs => sizeOf fs
end

theorem processRest_spec (documents : List Document) :
    (fields : List (String × QueryValue)) → (found : List (Option Nat)) →
    processRest documents fields found =
      found.map (fun slot => slot.bind (fun i =>
        if fields.all (fieldMatches documents i) then some i else none))
  | [], found => by
      simp [processRest]
  | kv :: rest, found => by
      have step : processRest documents (kv :: rest) found =
          processRest documents rest (applyField documents kv.1 kv.2 found) := by
        simp [processRest]
      rw [step, processRest_spec documents rest]
      rw [applyField, List.map_map]
      apply List.map_congr_left
      intro slot _
      cases slot with
      | none => rfl
      | some i =>
          simp only [Function.comp_apply, List.all_cons, fieldMatches, Option.some_bind]
          rcases Bool.eq_false_or_eq_true
              (matchValues kv.2 (getField (documents.getD i []) kv.1)) with h | h <;>
            simp only [h, Bool.true_and, Bool.false_and, if_true] <;> simp

theorem firstScan_eq_filter (documents : List Document) (key : String) (qv : QueryValue) :
    firstScan documents key qv =
      (List.range documents.length).filter (fun i => fieldMatches documents i (key, qv)) := by
  rfl

theorem filterMap_guard_eq_filter (p : Nat → Bool) :
    (l : List Nat) → l.filterMap (fun i => if p i then some i else none) = l.filter p
  | [] => rfl
  | x :: xs => by
      by_cases h : p x <;>
        simp [List.filterMap_cons, List.filter_cons, h, filterMap_guard_eq_filter p xs]

theorem searchFields_eq_filter (documents : List Document) :
    (fields : List (String × QueryValue)) →
    searchFields documents fields =
      (List.range documents.length).filter (fun i => fields.all (fieldMatches documents i))
  | [] => by
      have hlen : ((documents.length : Int) - 1 + 1).toNat = documents.length := by omega
      rw [searchFields, numbersList, hlen]
      exact (List.filter_eq_self.mpr (fun a _ => rfl)).symm
  | (key, qv) :: rest => by
      rw [searchFields]
      by_cases hempty : (firstScan documents key qv).isEmpty
      · rw [if_pos hempty]
        rw [List.isEmpty_iff] at hempty
        rw [firstScan_eq_filter] at hempty
        rw [List.filter_eq_nil_iff] at hempty
        refine (List.filter_eq_nil_iff.mpr ?_).symm
        intro a ha hall
        refine hempty a ha ?_
        rw [List.all_cons, Bool.and_eq_true_iff] at hall
        exact hall.1
      · rw [if_neg hempty]
        rw [cleanArray, processRest_spec documents rest, List.map_map]
        have hcomp :
            ((fun slot => Option.bind slot (fun i =>
              if rest.all (fieldMatches documents i) then some i else none)) ∘ some) =
            (fun i => if rest.all (fieldMatches documents i) then some i else none) := by
          funext i
          rfl
        rw [hcomp, List.filterMap_map]
        have hid :
            (id ∘ (fun i => if rest.all (fieldMatches documents i) then some i else none)) =
            (fun i => if rest.all (fieldMatches documents i) then some i else none) := by
          funext i
          rfl
        rw [hid, filterMap_guard_eq_filter, firstScan_eq_filter, List.filter_filter]
        apply List.filter_congr
        intro i _
        rw [List.all_cons, Bool.and_comm]

theorem searchDocuments_qMap_eq_filter (documents : List Document)
    (fields : List (String × QueryValue)) :
    searchDocuments (.qMap fields) documents =
      (List.range documents.length).filter (fun i => fields.all (fieldMatches documents i)) := by
  rw [searchDocuments]
  exact searchFields_eq_filter documents fields

/-- C1: for every array of documents and every query that is undefined
or has no fields, `searchDocuments` returns exactly the position list
`[0..n-1]`, in ascending order. -/
theorem claim_c1_empty_query_returns_all_positions (documents : List Document) :
    searchDocuments .qNone documents = List.range documents.length ∧
    searchDocuments (.qMap []) documents = List.range documents.length := by
  have hlen : ((documents.length : Int) - 1 + 1).toNat = documents.length := by omega
  constructor
  · rw [searchDocuments, numbersList, hlen]
  · rw [searchDocuments_qMap_eq_filter]
    exact List.filter_eq_self.mpr (fun a _ => rfl)

/-- C2: the positions returned for a multi-field query are exactly
those returned by every one of its single-field queries (conjunction),
and the result is unchanged under any reordering of the fields of the
query map. -/
theorem claim_c2_conjunction_and_order_invariance
    (documents : List Document) (fields fields2 : List (String × QueryValue))
    (hperm : fields.Perm fields2) :
    searchDocuments (.qMap fields) documents = searchDocuments (.qMap fields2) documents ∧
    ∀ i, i ∈ searchDocuments (.qMap fields) documents ↔
      (i < documents.length ∧
        ∀ kv ∈ fields, i ∈ searchDocuments (.qMap [kv]) documents) := by
  have key : ∀ (l1 l2 : List (String × QueryValue)) (p : (String × QueryValue) → Bool),
      l1.Perm l2 → l1.all p = true → l2.all p = true := fun l1 l2 p hp h =>
    List.all_eq_true.mpr (fun x hx => List.all_eq_true.mp h x (hp.mem_iff.mpr hx))
  have hall : ∀ p : (String × QueryValue) → Bool, fields.all p = fields2.all p := by
    intro p
    rcases Bool.eq_false_or_eq_true (fields.all p) with h1 | h1 <;>
      rcases Bool.eq_false_or_eq_true (fields2.all p) with h2 | h2
    · rw [h1, h2]
    · exact absurd (key fields fields2 p hperm h1) (by rw [h2]; simp)
    · exact absurd (key fields2 fields p hperm.symm h2) (by rw [h1]; simp)
    · rw [h1, h2]
  constructor
  · rw [searchDocuments_qMap_eq_filter, searchDocuments_qMap_eq_filter]
    exact List.filter_congr (fun i _ => hall _)
  · intro i
    rw [searchDocuments_qMap_eq_filter, List.mem_filter, List.mem_range, List.all_eq_true]
    constructor
    · rintro ⟨hi, hmatch⟩
      refine ⟨hi, fun kv hkv => ?_⟩
      rw [searchDocuments_qMap_eq_filter, List.mem_filter, List.mem_range]
      refine ⟨hi, ?_⟩
      rw [List.all_cons, List.all_nil, Bool.and_true]
      exact hmatch kv hkv
    · rintro ⟨hi, hsingle⟩
      refine ⟨hi, fun kv hkv => ?_⟩
      have hmem := hsingle kv hkv
      rw [searchDocuments_qMap_eq_filter, List.mem_filter] at hmem
      have h2 := hmem.2
      rw [List.all_cons, List.all_nil, Bool.and_true] at h2
      exact h2

/-- C2 witness: a two-field query on a concrete collection agrees with
its reversed ordering and with the intersection of its single-field
queries. -/
theorem claim_c2_conjunction_witness :
    searchDocuments
        (.qMap [("a", .qVal (.num 1)), ("b", .qVal (.num 2))])
        [[("a", .num 1), ("b", .num 2)]] =
      searchDocuments
        (.qMap [("b", .qVal (.num 2)), ("a", .qVal (.num 1))])
        [[("a", .num 1), ("b", .num 2)]] ∧
    ∀ i, i ∈ searchDocuments
        (.qMap [("a", .qVal (.num 1)), ("b", .qVal (.num 2))])
        [[("a", .num 1), ("b", .num 2)]] ↔
      (i < ([[("a", .num 1), ("b", .num 2)]] : List Document).length ∧
        ∀ kv ∈ [("a", .qVal (.num 1)), ("b", .qVal (.num 2))],
          i ∈ searchDocuments (.qMap [kv]) [[("a", .num 1), ("b", .num 2)]]) :=
  claim_c2_conjunction_and_order_invariance _ _ _ (List.Perm.swap _ _ _)

/-- C6: the absent-marker query value matches exactly the absent
document value, and matching a query value against a field the
document lacks is the same as matching it against the absent-marker. -/
theorem claim_c6_absent_marker_matching (v : JSValue) (d : Document) (key : String)
    (qv : QueryValue) (hmissing : lookupField d key = none) :
    (matchValues (.qVal .undefined) v = true ↔ v = .undefined) ∧
    matchValues qv (getField d key) = matchValues qv .undefined := by
  constructor
  · cases v <;> simp [matchValues, isUndefined]
  · rw [getField, hmissing]
    rfl

/-- C6 witness: a concrete document without the queried field. -/
theorem claim_c6_absent_marker_witness :
    (matchValues (.qVal .undefined) (.num 5) = true ↔ (JSValue.num 5) = .undefined) ∧
    matchValues (.qVal (.num 3)) (getField [("b", .num 2)] "a") =
      matchValues (.qVal (.num 3)) .undefined :=
  claim_c6_absent_marker_matching (.num 5) [("b", .num 2)] "a" (.qVal (.num 3)) rfl

/-- C7: whenever some query field (together with the fields before it)
filters the surviving candidate set to empty the search returns the
empty list; and in all cases the result is the compacted, strictly
increasing list of exactly the in-range positions matching every query
field (no duplicate, missing or out-of-range entries). -/
theorem claim_c7_early_empty_and_compact_result
    (documents : List Document) (fields : List (String × QueryValue)) :
    (∀ pre f post, fields = pre ++ f :: post →
        (List.range documents.length).filter
          (fun i => (pre ++ [f]).all (fieldMatches documents i)) = [] →
        searchDocuments (.qMap fields) documents = []) ∧
    List.Sorted (· < ·) (searchDocuments (.qMap fields) documents) ∧
    (∀ i ∈ searchDocuments (.qMap fields) documents,
        i < documents.length ∧ fields.all (fieldMatches documents i) = true) ∧
    (∀ i, i < documents.length → fields.all (fieldMatches documents i) = true →
        i ∈ searchDocuments (.qMap fields) documents) := by
  refine ⟨?_, ?_, ?_, ?_⟩
  · intro pre f post hsplit hempty
    rw [searchDocuments_qMap_eq_filter]
    rw [List.filter_eq_nil_iff] at hempty
    refine List.filter_eq_nil_iff.mpr ?_
    intro i hi hmatch
    refine hempty i hi ?_
    simp only [List.all_eq_true] at hmatch ⊢
    intro kv hkv
    refine hmatch kv ?_
    rw [hsplit]
    rcases List.mem_append.mp hkv with h | h
    · exact List.mem_append.mpr (Or.inl h)
    · rw [List.mem_singleton] at h
      subst h
      exact List.mem_append.mpr (Or.inr (List.mem_cons_self _ _))
  · rw [searchDocuments_qMap_eq_filter]
    exact (List.sorted_lt_range documents.length).filter _
  · intro i hi
    rw [searchDocuments_qMap_eq_filter, List.mem_filter, List.mem_range] at hi
    exact hi
  · intro i hlt hmatch
    rw [searchDocuments_qMap_eq_filter, List.mem_filter, List.mem_range]
    exact ⟨hlt, hmatch⟩

/-- C7 witness: a single-field query that filters the candidate set to
empty on a concrete collection yields the empty position list. -/
theorem claim_c7_early_empty_witness :
    searchDocuments (.qMap [("a", .qVal (.num 1))]) [[("b", .num 2)]] = [] :=
  (claim_c7_early_empty_and_compact_result [[("b", .num 2)]]
      [("a", .qVal (.num 1))]).1 [] ("a", .qVal (.num 1)) [] rfl (by rfl)

/-- C3: a whole-document transform returning a value that is neither an
object nor the deletion signal (falsy) makes `updateDocument` signal a
type error to the caller instead of coercing; the engine only ever
works on a deep copy of the document of the caller, which `deepCloneFields`
rebuilds without aliasing. -/
theorem claim_c3_transform_type_error (document : Document) (f : Document → JSValue)
    (htruthy : jsFalsy (f document) = false) (hnotobj : isObject (f document) = false) :
    updateDocument document (.uFunc f) = .error "Document must be an object" := by
  have hclone : deepCloneFields document = document := deepCloneFields_eq document
  rw [updateDocument]
  simp only [hclone, htruthy, Bool.false_eq_true, if_false]
  cases hr : f document with
  | obj fs => rw [hr] at hnotobj; simp [isObject] at hnotobj
  | undefined => rfl
  | null => rfl
  | bool b => rfl
  | num n => rfl
  | str s => rfl
  | arr xs => rfl

/-- C3 witness: a transform returning a truthy number on a concrete
document. -/
theorem claim_c3_transform_type_error_witness :
    updateDocument [("a", .num 1)] (.uFunc (fun _ => .num 5)) =
      .error "Document must be an object" :=
  claim_c3_transform_type_error [("a", .num 1)] (fun _ => .num 5) rfl rfl

/-- C4: a document returned by `updateDocument` never contains an
absent-marker field at any nesting depth, and an update whose
normalization leaves zero top-level fields yields the deletion signal
instead of a document (for field-map updates and for whole-document
transforms alike). -/
theorem claim_c4_normalization_invariant (d : Document) (u : UpdateArg) :
    (∀ doc, updateDocument d u = .ok (some doc) → noAbsentFields doc = true) ∧
    (∀ ufields, prepareFields (applyUpdates (deepCloneFields d) ufields) = [] →
        updateDocument d (.uMap ufields) = .ok none) ∧
    (∀ f fs, f (deepCloneFields d) = .obj fs → prepareFields fs = [] →
        updateDocument d (.uFunc f) = .ok none) := by
  refine ⟨?_, ?_, ?_⟩
  · intro doc hok
    cases u with
    | uMap ufields =>
        rw [updateDocument] at hok
        by_cases hemp : (prepareFields (applyUpdates (deepCloneFields d) ufields)).isEmpty
        · rw [if_pos hemp] at hok
          cases hok
        · rw [if_neg hemp] at hok
          have hdoc := (Except.ok.inj hok)
          have hdoc2 := Option.some.inj hdoc
          rw [← hdoc2, deepCloneFields_eq]
          exact noAbsent_prepareFields _
    | uFunc f =>
        rw [updateDocument] at hok
        by_cases hfal : jsFalsy (f (deepCloneFields d))
        · rw [if_pos hfal] at hok
          cases hok
        · rw [if_neg hfal] at hok
          cases hr : f (deepCloneFields d) with
          | obj fs =>
              rw [hr] at hok
              split at hok
              next x gs heq =>
                obtain rfl : gs = fs := (JSValue.obj.inj heq).symm
                simp only [] at hok
                split at hok
                · cases hok
                · have hdoc := Option.some.inj (Except.ok.inj hok)
                  rw [← hdoc, deepCloneFields_eq]
                  exact noAbsent_prepareFields _
              next x hne => exact (hne fs rfl).elim
          | undefined => rw [hr] at hok; cases hok
          | null => rw [hr] at hok; cases hok
          | bool b => rw [hr] at hok; cases hok
          | num n => rw [hr] at hok; cases hok
          | str s => rw [hr] at hok; cases hok
          | arr xs => rw [hr] at hok; cases hok
  · intro ufields hemp
    rw [updateDocument, hemp]
    rfl
  · intro f fs hr hemp
    rw [updateDocument, hr]
    have hfal : jsFalsy (JSValue.obj fs) = false := rfl
    rw [hfal]
    simp only [Bool.false_eq_true, if_false, hemp]
    rfl

/-- C4 witness: a field-map update deleting the single field of a
concrete document yields the deletion signal, and an identity update on
it returns a document free of absent-marker fields. -/
theorem claim_c4_normalization_witness :
    updateDocument [("a", .num 1)] (.uMap [("a", .uVal .undefined)]) = .ok none ∧
    noAbsentFields [("a", .num 1)] = true := by
  constructor
  · refine (claim_c4_normalization_invariant [("a", .num 1)] (.uMap [])).2.1
      [("a", .uVal .undefined)] ?_
    simp [deepCloneFields_eq, applyUpdates, isUndefined, deleteField, prepareFields]
  · refine (claim_c4_normalization_invariant [("a", .num 1)] (.uMap [])).1
      [("a", .num 1)] ?_
    simp [updateDocument, deepCloneFields_eq, applyUpdates, prepareFields]

theorem parseElements_ok_iff (elems : List JSValue) :
    (∃ docs, parseElements elems = .ok docs) ↔ ∀ x ∈ elems, isObject x = true := by
  induction elems with
  | nil => simp [parseElements]
  | cons x rest ih =>
      cases x with
      | obj fs =>
          simp only [parseElements]
          constructor
          · rintro ⟨docs, hdocs⟩ y hy
            rcases List.mem_cons.mp hy with h | h
            · subst h
              rfl
            · cases hrest : parseElements rest with
              | ok ds => exact ih.mp ⟨ds, hrest⟩ y h
              | error e =>
                  rw [hrest] at hdocs
                  simp [Except.map] at hdocs
          · intro hall
            rcases ih.mpr (fun y hy => hall y (List.mem_cons_of_mem _ hy)) with ⟨ds, hds⟩
            rw [hds]
            exact ⟨_, rfl⟩
      | undefined => simp [parseElements, isObject]
      | null => simp [parseElements, isObject]
      | bool b => simp [parseElements, isObject]
      | num n => simp [parseElements, isObject]
      | str s => simp [parseElements, isObject]
      | arr xs => simp [parseElements, isObject]

/-- C8: parsing succeeds exactly when the content is blank or a JSON
array of objects (any non-object element is a format error);
whitespace-only content parses to the empty collection; and a parse
error during load leaves the in-memory collection unmodified. -/
theorem claim_c8_parse_failure_handling (c : FileContent) (current : List Document)
    (e : String) :
    ((∃ docs, parseDatabaseStorage c = .ok docs) ↔
      (c = .blank ∨ ∃ elems, c = .json (.arr elems) ∧ ∀ x ∈ elems, isObject x = true)) ∧
    parseDatabaseStorage .blank = .ok ([] : List Document) ∧
    (parseDatabaseStorage c = .error e → load current c = current) := by
  refine ⟨?_, rfl, ?_⟩
  · cases c with
    | blank => simp [parseDatabaseStorage]
    | invalid => simp [parseDatabaseStorage]
    | json v =>
        cases v with
        | arr elems =>
            rw [parseDatabaseStorage]
            constructor
            · intro h
              exact Or.inr ⟨elems, rfl, (parseElements_ok_iff elems).mp h⟩
            · rintro (h | ⟨elems2, heq, hall⟩)
              · cases h
              · obtain rfl : elems2 = elems := by
                  injection heq with h2
                  exact (JSValue.arr.inj h2).symm
                exact (parseElements_ok_iff _).mpr hall
        | undefined => simp [parseDatabaseStorage]
        | null => simp [parseDatabaseStorage]
        | bool b => simp [parseDatabaseStorage]
        | num n => simp [parseDatabaseStorage]
        | str s => simp [parseDatabaseStorage]
        | obj fs => simp [parseDatabaseStorage]
  · intro herr
    rw [load, herr]

/-- C8 witness: content that is JSON but not an array leaves a concrete
collection untouched on load. -/
theorem claim_c8_parse_failure_witness :
    load [[("a", .num 1)]] (.json (.num 5)) = [[("a", .num 1)]] :=
  (claim_c8_parse_failure_handling (.json (.num 5)) [[("a", .num 1)]]
    "Database storage should be an array of objects").2.2 rfl

theorem foldl_addSnapshot_pending (rs : List String) :
    ∀ (c p f0 : String), rs.foldl addSnapshot ⟨.writingPending c p, f0⟩ =
      ⟨.writingPending c (rs.getLastD p), f0⟩ := by
  induction rs with
  | nil =>
      intro c p f0
      rfl
  | cons r rest ih =>
      intro c p f0
      rw [List.foldl_cons]
      have h1 : addSnapshot ⟨.writingPending c p, f0⟩ r = ⟨.writingPending c r, f0⟩ := rfl
      rw [h1, ih, List.getLastD_cons]

theorem foldl_addSnapshot_writing_concat (rs : List String) (s c f0 : String) :
    (rs ++ [s]).foldl addSnapshot ⟨.writing c, f0⟩ = ⟨.writingPending c s, f0⟩ := by
  cases rs with
  | nil => rfl
  | cons r rest =>
      rw [List.cons_append, List.foldl_cons]
      have h1 : addSnapshot ⟨.writing c, f0⟩ r = ⟨.writingPending c r, f0⟩ := rfl
      rw [h1, foldl_addSnapshot_pending, List.getLastD_concat]

/-- C9: after any burst of snapshot requests ending with snapshot `s`
(all arriving while earlier writes may be in flight), draining the
coalescer leaves the file containing exactly `s`, the coalescer idle,
at least one write completed, and every file content ever observable is
either the initial content or one of the requested snapshots (never a
mix). -/
theorem claim_c9_writer_coalescing (f0 s : String) (rs : List String) :
    (drain ((rs ++ [s]).foldl addSnapshot ⟨.idle, f0⟩)).file = s ∧
    (drain ((rs ++ [s]).foldl addSnapshot ⟨.idle, f0⟩)).st = .idle ∧
    1 ≤ drainSteps ((rs ++ [s]).foldl addSnapshot ⟨.idle, f0⟩) ∧
    ∀ x ∈ traceFiles ((rs ++ [s]).foldl addSnapshot ⟨.idle, f0⟩),
      x = f0 ∨ x ∈ rs ++ [s] := by
  cases rs with
  | nil =>
      have hfold : ([] ++ [s]).foldl addSnapshot ⟨.idle, f0⟩ = ⟨.writing s, f0⟩ := rfl
      rw [hfold]
      refine ⟨rfl, rfl, le_refl 1, ?_⟩
      intro x hx
      have hx2 : x ∈ [f0, s] := hx
      rcases List.mem_cons.mp hx2 with h | h
      · exact Or.inl h
      · rw [List.mem_singleton] at h
        subst h
        exact Or.inr (List.mem_singleton.mpr rfl)
  | cons r rest =>
      have hfold : ((r :: rest) ++ [s]).foldl addSnapshot ⟨.idle, f0⟩ =
          ⟨.writingPending r s, f0⟩ := by
        rw [List.cons_append, List.foldl_cons]
        have h1 : addSnapshot ⟨.idle, f0⟩ r = ⟨.writing r, f0⟩ := rfl
        rw [h1, foldl_addSnapshot_writing_concat]
      rw [hfold]
      refine ⟨rfl, rfl, Nat.le_succ 1, ?_⟩
      intro x hx
      have hx2 : x ∈ [f0, r, s] := hx
      rcases List.mem_cons.mp hx2 with h | h
      · exact Or.inl h
      · rcases List.mem_cons.mp h with h2 | h2
        · subst h2
          exact Or.inr (List.mem_cons_self _ _)
        · rw [List.mem_singleton] at h2
          subst h2
          refine Or.inr ?_
          rw [List.cons_append]
          exact List.mem_cons_of_mem _ (List.mem_append_right _ (List.mem_singleton.mpr rfl))

/-- C10: a document normalizing to empty makes `insertOne` return an
empty object without inserting or saving, and `insertMany` silently
skips such documents (inserting exactly the documents that do not
normalize to empty). -/
theorem claim_c10_insert_empty_documents (autosave : Bool) (docs : List Document)
    (d : Document) (input : List Document) :
    (prepareFields d = [] → insertOne autosave docs d = (docs, false, ([] : Document))) ∧
    insertMany autosave docs input =
      insertMany autosave docs (input.filter (fun x => !(prepareFields x).isEmpty)) := by
  constructor
  · intro h
    rw [insertOne, h]
    rfl
  · rw [insertMany, insertMany, List.filter_map, List.filter_map, List.filter_filter]
    have hpred : (fun a => ((fun p => !p.isEmpty) ∘ prepareFields) a &&
        (fun x => !(prepareFields x).isEmpty) a) =
        ((fun p => !p.isEmpty) ∘ prepareFields) := by
      funext a
      simp [Function.comp, Bool.and_self]
    rw [hpred]

/-- C10 witness: inserting a concrete document whose only field is
absent-marked leaves the collection and the save flag untouched. -/
theorem claim_c10_insert_empty_witness :
    insertOne true [[("b", .num 2)]] [("a", .undefined)] =
      ([[("b", .num 2)]], false, ([] : Document)) :=
  (claim_c10_insert_empty_documents true [[("b", .num 2)]] [("a", .undefined)] []).1
    (by simp [prepareFields])
